import Mathlib

/-!
Verification of the path-comment header-normalization engine.

The development shallowly embeds the Rust sources (`src/comments.rs`,
`src/cli.rs`) in Lean.  File content is modelled as `List Char` (the
decoded UTF-8 text); Rust's `str::lines` is modelled as splitting on
`'\n'` (carriage returns do not occur in any input considered here);
Rust's Unicode-aware `char` classes (`\w`, `\s`, `to_lowercase`,
`str::trim`) are modelled by their ASCII restrictions.
-/

namespace PathComment

/-- Characters matched by the regex class `\s` (ASCII part). -/
def regexWs (c : Char) : Bool :=
  c = ' ' || c = '\t' || c = '\n' || c = '\r' || c = '\x0b' || c = '\x0c'

/-- Characters matched by the regex class `\w` (ASCII part):
alphanumeric or underscore. -/
def wordChar (c : Char) : Bool :=
  c.isAlphanum || c = '_'

/-- Characters matched by the regex class `[\w\-\.\s]` used for path
segment names in `src/comments.rs`. -/
def segChar (c : Char) : Bool :=
  wordChar c || c = '-' || c = '.' || regexWs c

/-- Characters matched by `(?:/|\\)`, the path separators. -/
def sepChar (c : Char) : Bool :=
  c = '/' || c = '\\'

/-- Whitespace as used by Rust `str::trim` (ASCII part). -/
def rustWs (c : Char) : Bool :=
  c.isWhitespace

/-- Model of Rust `str::trim`: remove leading and trailing whitespace. -/
def rustTrim (s : List Char) : List Char :=
  ((s.dropWhile rustWs).reverse.dropWhile rustWs).reverse

/-- Model of Rust `str::trim_end`. -/
def rustTrimEnd (s : List Char) : List Char :=
  (s.reverse.dropWhile rustWs).reverse

/-- Model of Rust `str::trim_start`. -/
def rustTrimStart (s : List Char) : List Char :=
  s.dropWhile rustWs

/-- Split a character list at a separator character, keeping empty
fields (the semantics of Rust `str::split`); always returns at least
one field. -/
def splitOnChar (sep : Char) : List Char → List (List Char)
  | [] => [[]]
  | c :: rest =>
    if c = sep then [] :: splitOnChar sep rest
    else
      match splitOnChar sep rest with
      | [] => [[c]]
      | f :: fs => (c :: f) :: fs

/-- Split at newline characters, keeping empty fields. -/
def splitNl : List Char → List (List Char) := splitOnChar '\n'

/-- Join a list of lines with `'\n'` (the semantics of
`Vec::join("\n")`). -/
def joinNl : List (List Char) → List Char
  | [] => []
  | [l] => l
  | l :: ls => l ++ '\n' :: joinNl ls

/-- Does the content end with a newline character? -/
def endsWithNl (s : List Char) : Bool :=
  s.getLast? = some '\n'

/-- Model of Rust `str::lines`: split at `'\n'`, the final line ending
being optional (so no trailing empty line is produced). -/
def rustLines (s : List Char) : List (List Char) :=
  if s = [] then []
  else if endsWithNl s then (splitNl s).dropLast
  else splitNl s

end PathComment

namespace PathComment

/-- Regular expressions over characters, used to embed the compiled
patterns of `comments.rs::REGEXES`.  Character classes carry their
membership predicate. -/
inductive RE where
  | emp : RE
  | eps : RE
  | cls : (Char → Bool) → RE
  | cat : RE → RE → RE
  | alt : RE → RE → RE
  | star : RE → RE

/-- Smart concatenation constructor (simplifies the annihilator and
unit so that derivative terms stay small). -/
def RE.scat : RE → RE → RE
  | .emp, _ => .emp
  | _, .emp => .emp
  | .eps, b => b
  | a, .eps => a
  | a, b => .cat a b

/-- Smart alternation constructor. -/
def RE.salt : RE → RE → RE
  | .emp, b => b
  | a, .emp => a
  | a, b => .alt a b

/-- Does the regex accept the empty string? -/
def RE.nullable : RE → Bool
  | .emp => false
  | .eps => true
  | .cls _ => false
  | .cat a b => a.nullable && b.nullable
  | .alt a b => a.nullable || b.nullable
  | .star _ => true

/-- Brzozowski derivative with respect to one character. -/
def RE.deriv : RE → Char → RE
  | .emp, _ => .emp
  | .eps, _ => .emp
  | .cls p, c => if p c then .eps else .emp
  | .cat a b, c =>
    if a.nullable then .salt (.scat (a.deriv c) b) (b.deriv c)
    else .scat (a.deriv c) b
  | .alt a b, c => .salt (a.deriv c) (b.deriv c)
  | .star r, c => .scat (r.deriv c) (.star r)

/-- Full-string matching by iterated derivatives (the semantics of an
anchored `Regex::is_match` on the whole input). -/
def RE.matches (r : RE) (s : List Char) : Bool :=
  (s.foldl RE.deriv r).nullable

/-- One-or-more repetition (`+`). -/
def RE.plus (r : RE) : RE := .cat r (.star r)

/-- Zero-or-one repetition (`?`). -/
def RE.opt (r : RE) : RE := .alt .eps r

/-- A literal character. -/
def RE.chr (c : Char) : RE := .cls (· = c)

/-- A literal string (concatenation of literal characters). -/
def RE.lit : List Char → RE
  | [] => .eps
  | c :: cs => .cat (RE.chr c) (RE.lit cs)

end PathComment

namespace PathComment

/-- The closed comment-style enum of `comments.rs`. -/
inductive Style where
  | Slash      -- //
  | SlashStar  -- /* */
  | Hash       -- #
  | Semi       -- ;
  | Xml        -- <!-- -->
  | DoubleDash -- --
  | Percent    -- %
deriving DecidableEq, Repr, Inhabited

/-- `Style::delimiters`: the fixed (prefix, suffix) pair of each style. -/
def Style.delimiters : Style → List Char × List Char
  | .Slash => ("// ".data, "".data)
  | .SlashStar => ("/* ".data, " */".data)
  | .Hash => ("# ".data, "".data)
  | .Semi => ("; ".data, "".data)
  | .Xml => ("<!-- ".data, " -->".data)
  | .DoubleDash => ("-- ".data, "".data)
  | .Percent => ("% ".data, "".data)

/-- The path-shaped-token alternation of the pattern in
`comments.rs::REGEXES`:
`(?:/|\\|[A-Za-z]:)?(?:[\w\-\.\s]+(?:/|\\))+[\w\-\.\s]+(?:\.\w+)?|[\w\-\.\s]+\.\w+`. -/
def pathRe : RE :=
  .alt
    (.cat (.opt (.alt (.cls sepChar) (.cat (.cls (fun c => c.isAlpha)) (RE.chr ':'))))
      (.cat (RE.plus (.cat (RE.plus (.cls segChar)) (.cls sepChar)))
        (.cat (RE.plus (.cls segChar))
          (.opt (.cat (RE.chr '.') (RE.plus (.cls wordChar)))))))
    (.cat (RE.plus (.cls segChar)) (.cat (RE.chr '.') (RE.plus (.cls wordChar))))

/-- The per-style pattern of `comments.rs::REGEXES`:
`^\s*({start})\s*(path)\s*({end})\s*$`, where `start` is the prefix with
trailing whitespace trimmed and `end` is the suffix with leading
whitespace trimmed. -/
def styleRe (st : Style) : RE :=
  let d := st.delimiters
  .cat (.star (.cls regexWs))
    (.cat (RE.lit (rustTrimEnd d.1))
      (.cat (.star (.cls regexWs))
        (.cat pathRe
          (.cat (.star (.cls regexWs))
            (.cat (RE.lit (rustTrimStart d.2)) (.star (.cls regexWs)))))))

/-- `Regex::is_match` of the style's pattern against a line, as invoked
in `cli.rs::process_file` (on the trimmed line). -/
def isPathComment (st : Style) (line : List Char) : Bool :=
  (styleRe st).matches (rustTrim line)

end PathComment

namespace PathComment

/-- The mode flags consumed by `Cli::process_file` (`args.strip`,
`args.clean`, `args.dry_run`). -/
structure Flags where
  strip : Bool
  clean : Bool
  dryRun : Bool
deriving DecidableEq, Repr

/-- The per-file outcome of `Cli::process_file`:
`noChange` — an early return incrementing `skipped_count`, nothing
written; `written` — the new content written, `processed_count`
incremented; `dryChange` — dry-run with a change computed, nothing
written, `processed_count` incremented; `ineligible` — the
`should_process_file` guard failed, nothing counted or written. -/
inductive Report where
  | noChange
  | written
  | dryChange
  | ineligible
deriving DecidableEq, Repr

/-- The canonical header line: `format!("{comment_start}{rel_path_str}{comment_end}")`. -/
def mkHeader (st : Style) (rel : List Char) : List Char :=
  st.delimiters.1 ++ rel ++ st.delimiters.2

/-- Whether the first line already equals the canonical header
(`lines[0].trim() == first_line.trim()` guarded by `!lines.is_empty()`). -/
def alreadyHad (st : Style) (rel : List Char) (lines : List (List Char)) : Bool :=
  match lines with
  | [] => false
  | l0 :: _ => rustTrim l0 == rustTrim (mkHeader st rel)

/-- The line numbers collected as stale path comments: every line whose
trimmed text matches the style's pattern, except line 0 when it already
was the canonical header; empty when stripping is disabled. -/
def stripIndices (st : Style) (rel : List Char) (f : Flags)
    (lines : List (List Char)) : List Nat :=
  if f.strip then
    ((lines.enum.filter (fun p =>
      !(p.1 == 0 && alreadyHad st rel lines) && isPathComment st p.2)).map Prod.fst)
  else []

/-- The trailing-newline fix-up applied after joining
(`cli.rs` lines 409–421): preserve a trailing newline when the original
had one or was empty, ensuring only one is appended; otherwise remove a
trailing newline if joining produced one. -/
def fixTrailing (content newContent : List Char) : List Char :=
  if endsWithNl content || content == [] then
    if !endsWithNl newContent then newContent ++ ['\n'] else newContent
  else
    if endsWithNl newContent && newContent != [] then newContent.dropLast
    else newContent

/-- The assembled replacement content of `Cli::process_file`: the
canonical header (unless clean mode), then every original line except
the superseded line 0 and the stripped stale lines, joined with
newlines and with the trailing-newline policy applied. -/
def assembleContent (st : Style) (rel : List Char) (f : Flags)
    (content : List Char) : List Char :=
  let lines := rustLines content
  let had := alreadyHad st rel lines
  let idxs := stripIndices st rel f lines
  let keep : Nat → Bool := fun i =>
    let isStrip := f.strip && idxs.contains i
    if i == 0 then !(isStrip || had) else !isStrip
  let body := (lines.enum.filter (fun p => keep p.1)).map Prod.snd
  let finalLines := (if !f.clean then [mkHeader st rel] else []) ++ body
  fixTrailing content (joinNl finalLines)

/-- The decision core of `Cli::process_file` after decoding and
relative-path computation: returns the content left on disk and the
reported outcome. -/
def processCore (st : Style) (rel : List Char) (f : Flags)
    (content : List Char) : List Char × Report :=
  let lines := rustLines content
  if alreadyHad st rel lines && (!f.strip || !f.clean) then (content, .noChange)
  else
    let newContent := assembleContent st rel f content
    if newContent == content then (content, .noChange)
    else if f.dryRun then (content, .dryChange)
    else (newContent, .written)

end PathComment

namespace PathComment

/-- ASCII lowercasing, modelling `str::to_lowercase` on the inputs
considered here. -/
def asciiLower (s : List Char) : List Char :=
  s.map Char.toLower

/-- Model of `Path::file_name` as a string: the part after the last
`'/'` (`None`, i.e. treated as having no extension, for `".."`). -/
def fileNameOf (p : List Char) : List Char :=
  (p.reverse.takeWhile (fun c => c ≠ '/')).reverse

/-- Model of `Path::extension`: the part of the file name after the
last `'.'`, unless there is no `'.'` or the only `'.'` is the leading
character (hidden files have no extension). -/
def pathExtension (p : List Char) : Option (List Char) :=
  let name := fileNameOf p
  if name = "..".data then none
  else
    let extRev := name.reverse.takeWhile (fun c => c ≠ '.')
    if extRev.length = name.length then none
    else if extRev.length + 1 = name.length ∧ name.head? = some '.' then none
    else some extRev.reverse

/-- `Cli::should_process_file`: the lowercased extension must be a key
of the extension→style table. -/
def shouldProcessFile (styles : List (List Char × Style)) (path : List Char) : Bool :=
  match pathExtension path with
  | some ext => (styles.lookup (asciiLower ext)).isSome
  | none => false

/-- `Cli::determine_comment_style`: a command-line override style wins,
otherwise the table entry for the lowercased extension. -/
def determineCommentStyle (styles : List (List Char × Style))
    (override : Option Style) (path : List Char) : Option Style :=
  match override with
  | some st => some st
  | none =>
    match pathExtension path with
    | some ext => styles.lookup (asciiLower ext)
    | none => none

/-- Model of `Path::strip_prefix`: remove the base directory (and the
following separator) when it is a leading sequence of components. -/
def stripPrefixPath (base p : List Char) : Option (List Char) :=
  if base.isPrefixOf p then
    match p.drop base.length with
    | [] => some []
    | '/' :: r => some r
    | _ => none
  else none

/-- Replace every backslash by a forward slash
(`replace('\\', "/")`). -/
def replaceBackslashes (s : List Char) : List Char :=
  s.map (fun c => if c = '\\' then '/' else c)

/-- Repeatedly remove a leading `"./"`
(`trim_start_matches("./")`). -/
def trimDotSlash (s : List Char) : List Char :=
  match s with
  | '.' :: '/' :: r => trimDotSlash r
  | _ => s

/-- The relative path embedded in the header (`cli.rs` lines 274–282):
the path with the base directory stripped — or the full path when that
fails — with backslashes normalized and a leading `./` removed. -/
def relPathOf (base p : List Char) : List Char :=
  trimDotSlash (replaceBackslashes ((stripPrefixPath base p).getD p))

/-- `Cli::process_file` including the eligibility guard, style
resolution and relative-path computation. -/
def processFile (styles : List (List Char × Style)) (override : Option Style)
    (f : Flags) (base path content : List Char) : List Char × Report :=
  if !shouldProcessFile styles path then (content, .ineligible)
  else
    match determineCommentStyle styles override path with
    | none => (content, .noChange)
    | some st => processCore st (relPathOf base path) f content

end PathComment

namespace PathComment

/-- Split a comma-separated extension list and normalize each entry
(`extensions.split(',').map(|e| e.trim().to_lowercase())`). -/
def specifiedExtensions (s : List Char) : List (List Char) :=
  (splitOnChar ',' s).map (fun e => asciiLower (rustTrim e))

/-- The allow-list filtering of `Cli::new`: each specified extension is
looked up in the merged table, keeping its configured style, and falls
back to `Style::Slash` when absent. -/
def filterExtensions (table : List (List Char × Style)) (exts : List Char) :
    List (List Char × Style) :=
  (specifiedExtensions exts).map (fun e => (e, (table.lookup e).getD Style.Slash))

/-- The extensions warned about in `Cli::new`: the specified extensions
with no configuration entry. -/
def filterWarnings (table : List (List Char × Style)) (exts : List Char) :
    List (List Char) :=
  (specifiedExtensions exts).filter (fun e => (table.lookup e).isNone)

end PathComment

namespace PathComment

theorem splitOnChar_ne_nil (sep : Char) (s : List Char) : splitOnChar sep s ≠ [] := by
  induction s with
  | nil => simp [splitOnChar]
  | cons c rest ih =>
    by_cases hc : c = sep
    · simp [splitOnChar, hc]
    · cases h : splitOnChar sep rest with
      | nil => exact absurd h ih
      | cons f fs => simp [splitOnChar, hc, h]

theorem splitOnChar_of_not_mem {sep : Char} {s : List Char} (h : sep ∉ s) :
    splitOnChar sep s = [s] := by
  induction s with
  | nil => simp [splitOnChar]
  | cons c rest ih =>
    have hc : c ≠ sep := fun hcc => h (hcc ▸ List.mem_cons_self c rest)
    have hrest : sep ∉ rest := fun hm => h (List.mem_cons_of_mem c hm)
    simp [splitOnChar, hc, ih hrest]

theorem splitOnChar_append_of_not_mem {sep : Char} {a : List Char} (b : List Char)
    (ha : sep ∉ a) {f : List Char} {fs : List (List Char)}
    (hb : splitOnChar sep b = f :: fs) :
    splitOnChar sep (a ++ b) = (a ++ f) :: fs := by
  induction a with
  | nil => simpa using hb
  | cons c a' ih =>
    have hc : c ≠ sep := fun hcc => ha (hcc ▸ List.mem_cons_self c a')
    have ha' : sep ∉ a' := fun hm => ha (List.mem_cons_of_mem c hm)
    simp [splitOnChar, hc, ih ha']

theorem splitOnChar_cons_sep (sep : Char) (s : List Char) :
    splitOnChar sep (sep :: s) = [] :: splitOnChar sep s := by
  simp [splitOnChar]

theorem mem_splitOnChar_not_mem {sep : Char} {s : List Char} :
    ∀ l ∈ splitOnChar sep s, sep ∉ l := by
  induction s with
  | nil => intro l hl; simp [splitOnChar] at hl; simp [hl]
  | cons c rest ih =>
    intro l hl
    by_cases hc : c = sep
    · rw [hc, splitOnChar_cons_sep] at hl
      rcases List.mem_cons.mp hl with hl2 | hl2
      · simp [hl2]
      · exact ih l hl2
    · cases h : splitOnChar sep rest with
      | nil => exact absurd h (splitOnChar_ne_nil sep rest)
      | cons f fs =>
        rw [splitOnChar] at hl
        simp only [if_neg hc, h] at hl
        rcases List.mem_cons.mp hl with hl2 | hl2
        · subst hl2
          intro hmem
          rcases List.mem_cons.mp hmem with h1 | h1
          · exact hc h1.symm
          · exact ih f (h ▸ List.mem_cons_self f fs) h1
        · exact ih l (h ▸ List.mem_cons_of_mem f hl2)

theorem endsWithNl_mem {s : List Char} (h : endsWithNl s = true) : '\n' ∈ s := by
  unfold endsWithNl at h
  rw [decide_eq_true_eq] at h
  exact List.mem_of_mem_getLast? h

theorem endsWithNl_append_nl (s : List Char) : endsWithNl (s ++ ['\n']) = true := by
  simp [endsWithNl]

theorem endsWithNl_of_not_mem {s : List Char} (h : '\n' ∉ s) : endsWithNl s = false := by
  cases hE : endsWithNl s
  · rfl
  · exact absurd (endsWithNl_mem hE) h

end PathComment

namespace PathComment

theorem delimiters_no_nl (st : Style) :
    '\n' ∉ (Style.delimiters st).1 ∧ '\n' ∉ (Style.delimiters st).2 := by
  cases st <;> decide

theorem delimiters_fst_ne_nil (st : Style) : (Style.delimiters st).1 ≠ [] := by
  cases st <;> decide

theorem mkHeader_not_mem_nl {st : Style} {rel : List Char} (h : '\n' ∉ rel) :
    '\n' ∉ mkHeader st rel := by
  unfold mkHeader
  intro hm
  rcases List.mem_append.mp hm with h1 | h1
  · rcases List.mem_append.mp h1 with h2 | h2
    · exact (delimiters_no_nl st).1 h2
    · exact h h2
  · exact (delimiters_no_nl st).2 h1

theorem mkHeader_ne_nil (st : Style) (rel : List Char) : mkHeader st rel ≠ [] := by
  unfold mkHeader
  intro h
  rw [List.append_eq_nil, List.append_eq_nil] at h
  exact delimiters_fst_ne_nil st h.1.1

theorem head?_rustLines_of_shape {hdr rest : List Char}
    (hnn : '\n' ∉ hdr) (hne : hdr ≠ [])
    (hshape : rest = [] ∨ ∃ X, rest = '\n' :: X) :
    (rustLines (hdr ++ rest)).head? = some hdr := by
  rcases hshape with h | ⟨X, h⟩
  · subst h
    rw [List.append_nil]
    have hE : endsWithNl hdr = false := endsWithNl_of_not_mem hnn
    unfold rustLines
    rw [if_neg hne, hE]
    simp only [Bool.false_eq_true, if_false]
    rw [show splitNl hdr = splitOnChar '\n' hdr from rfl, splitOnChar_of_not_mem hnn]
    rfl
  · subst h
    have hsplit : splitNl (hdr ++ '\n' :: X) = hdr :: splitNl X := by
      have := splitOnChar_append_of_not_mem ('\n' :: X) hnn (splitOnChar_cons_sep '\n' X)
      rw [show splitNl (hdr ++ '\n' :: X) = splitOnChar '\n' (hdr ++ '\n' :: X) from rfl, this]
      simp [splitNl]
    have happne : hdr ++ '\n' :: X ≠ [] := by simp
    unfold rustLines
    rw [if_neg happne]
    by_cases hE : endsWithNl (hdr ++ '\n' :: X) = true
    · rw [hE]
      simp only [if_true]
      rw [hsplit]
      cases hX : splitNl X with
      | nil => exact absurd hX (splitOnChar_ne_nil '\n' X)
      | cons f fs =>
        rw [List.dropLast_cons₂]
        rfl
    · rw [Bool.not_eq_true] at hE
      rw [hE]
      simp only [Bool.false_eq_true, if_false]
      rw [hsplit]
      rfl

theorem fixTrailing_shape (content hdr : List Char) (body : List (List Char))
    (hnn : '\n' ∉ hdr) :
    ∃ rest, fixTrailing content (joinNl (hdr :: body)) = hdr ++ rest ∧
      (rest = [] ∨ ∃ X, rest = '\n' :: X) := by
  cases body with
  | nil =>
    have hj : joinNl [hdr] = hdr := rfl
    rw [hj]
    have hE : endsWithNl hdr = false := endsWithNl_of_not_mem hnn
    unfold fixTrailing
    by_cases h1 : (endsWithNl content || content == []) = true
    · rw [h1]
      simp only [if_true, hE]
      exact ⟨['\n'], rfl, Or.inr ⟨[], rfl⟩⟩
    · rw [Bool.not_eq_true] at h1
      rw [h1]
      simp only [Bool.false_eq_true, if_false, hE, Bool.false_and]
      exact ⟨[], (List.append_nil hdr).symm, Or.inl rfl⟩
  | cons b bs =>
    have hj : joinNl (hdr :: b :: bs) = hdr ++ '\n' :: joinNl (b :: bs) := rfl
    rw [hj]
    set Y := joinNl (b :: bs) with hY
    unfold fixTrailing
    by_cases h1 : (endsWithNl content || content == []) = true
    · rw [h1]
      simp only [if_true]
      by_cases h2 : endsWithNl (hdr ++ '\n' :: Y) = true
      · rw [h2]
        simp only [Bool.not_true, Bool.false_eq_true, if_false]
        exact ⟨'\n' :: Y, rfl, Or.inr ⟨Y, rfl⟩⟩
      · rw [Bool.not_eq_true] at h2
        rw [h2]
        simp only [Bool.not_false, if_true]
        exact ⟨'\n' :: (Y ++ ['\n']), by simp, Or.inr ⟨Y ++ ['\n'], rfl⟩⟩
    · rw [Bool.not_eq_true] at h1
      rw [h1]
      simp only [Bool.false_eq_true, if_false]
      by_cases h2 : (endsWithNl (hdr ++ '\n' :: Y) && (hdr ++ '\n' :: Y) != []) = true
      · rw [h2]
        simp only [if_true]
        rw [List.dropLast_append_cons]
        cases Y with
        | nil => exact ⟨[], by simp, Or.inl rfl⟩
        | cons y ys =>
          rw [List.dropLast_cons_of_ne_nil (List.cons_ne_nil y ys)]
          exact ⟨'\n' :: (y :: ys).dropLast, rfl, Or.inr ⟨(y :: ys).dropLast, rfl⟩⟩
      · rw [Bool.not_eq_true] at h2
        rw [h2]
        simp only [Bool.false_eq_true, if_false]
        exact ⟨'\n' :: Y, rfl, Or.inr ⟨Y, rfl⟩⟩

end PathComment

namespace PathComment

theorem assembleContent_shape (st : Style) (rel : List Char) (f : Flags)
    (content : List Char) (hclean : f.clean = false) (hnl : '\n' ∉ rel) :
    ∃ rest, assembleContent st rel f content = mkHeader st rel ++ rest ∧
      (rest = [] ∨ ∃ X, rest = '\n' :: X) := by
  unfold assembleContent
  rw [hclean]
  simp only [Bool.not_false, if_true, List.singleton_append]
  exact fixTrailing_shape content (mkHeader st rel) _ (mkHeader_not_mem_nl hnl)

theorem alreadyHad_assembleContent (st : Style) (rel : List Char) (f : Flags)
    (content : List Char) (hclean : f.clean = false) (hnl : '\n' ∉ rel) :
    alreadyHad st rel (rustLines (assembleContent st rel f content)) = true := by
  obtain ⟨rest, heq, hshape⟩ := assembleContent_shape st rel f content hclean hnl
  rw [heq]
  have hh := head?_rustLines_of_shape (mkHeader_not_mem_nl hnl) (mkHeader_ne_nil st rel) hshape
  unfold alreadyHad
  cases hL : rustLines (mkHeader st rel ++ rest) with
  | nil => rw [hL] at hh; exact absurd hh (by simp)
  | cons l0 ls =>
    rw [hL] at hh
    simp only [List.head?_cons, Option.some.injEq] at hh
    rw [hh]
    simp

theorem assembleContent_dryRun_irrelevant (st : Style) (rel : List Char)
    (s c d d' : Bool) (content : List Char) :
    assembleContent st rel ⟨s, c, d⟩ content = assembleContent st rel ⟨s, c, d'⟩ content := rfl

end PathComment

namespace PathComment

theorem endsWithNl_cons_of_ne_nil {c : Char} {s : List Char} (h : s ≠ []) :
    endsWithNl (c :: s) = endsWithNl s := by
  cases s with
  | nil => exact absurd rfl h
  | cons b t => simp [endsWithNl]

theorem getLast?_splitNl_ne_nil {s : List Char} (hne : s ≠ [])
    (hE : endsWithNl s = false) {x : List Char}
    (hx : (splitNl s).getLast? = some x) : x ≠ [] := by
  induction s generalizing x with
  | nil => exact absurd rfl hne
  | cons c rest ih =>
    cases hr : rest with
    | nil =>
      subst hr
      have hc : c ≠ '\n' := by
        intro hcc
        rw [hcc] at hE
        simp [endsWithNl] at hE
      rw [show splitNl [c] = [[c]] from by simp [splitNl, splitOnChar, hc]] at hx
      simp at hx
      subst hx
      simp
    | cons r0 rs =>
      have hrne : rest ≠ [] := by rw [hr]; simp
      have hE' : endsWithNl rest = false := by
        rw [endsWithNl_cons_of_ne_nil hrne] at hE
        exact hE
      by_cases hc : c = '\n'
      · subst hc
        rw [show splitNl ('\n' :: rest) = [] :: splitNl rest from
          splitOnChar_cons_sep '\n' rest] at hx
        cases hsp : splitNl rest with
        | nil => exact absurd hsp (splitOnChar_ne_nil '\n' rest)
        | cons f fs =>
          rw [hsp, List.getLast?_cons_cons] at hx
          exact ih hrne hE' (by rw [hsp]; exact hx)
      · cases hsp : splitNl rest with
        | nil => exact absurd hsp (splitOnChar_ne_nil '\n' rest)
        | cons f fs =>
          have : splitNl (c :: rest) = (c :: f) :: fs := by
            simp only [splitNl, splitOnChar, if_neg hc]
            rw [show splitOnChar '\n' rest = f :: fs from hsp]
          rw [this] at hx
          cases hfs : fs with
          | nil =>
            rw [hfs] at hx
            simp at hx
            subst hx
            simp
          | cons g gs =>
            rw [hfs, List.getLast?_cons_cons] at hx
            exact ih hrne hE' (by rw [hsp, hfs, List.getLast?_cons_cons]; exact hx)

theorem joinNl_ne_nil_of_getLast {l2 : List Char} {ls2 : List (List Char)} {x : List Char}
    (hlast : (l2 :: ls2).getLast? = some x) (hx : x ≠ []) :
    joinNl (l2 :: ls2) ≠ [] := by
  cases ls2 with
  | nil =>
    simp at hlast
    subst hlast
    exact hx
  | cons l3 ls3 => simp [joinNl]

theorem endsWithNl_joinNl_false {L : List (List Char)} {x : List Char}
    (hlast : L.getLast? = some x) (hx : x ≠ []) (hnl : '\n' ∉ x) :
    endsWithNl (joinNl L) = false := by
  induction L with
  | nil => simp at hlast
  | cons l ls ih =>
    cases ls with
    | nil =>
      simp at hlast
      subst hlast
      exact endsWithNl_of_not_mem hnl
    | cons l2 ls2 =>
      have hlast2 : (l2 :: ls2).getLast? = some x := by
        rwa [List.getLast?_cons_cons] at hlast
      have hj : joinNl (l :: l2 :: ls2) = l ++ '\n' :: joinNl (l2 :: ls2) := rfl
      rw [hj]
      have hjoin_ne : joinNl (l2 :: ls2) ≠ [] := joinNl_ne_nil_of_getLast hlast2 hx
      have h1 : endsWithNl (l ++ '\n' :: joinNl (l2 :: ls2)) =
          endsWithNl ('\n' :: joinNl (l2 :: ls2)) := by
        unfold endsWithNl
        rw [List.getLast?_append_of_ne_nil _ (by simp)]
      rw [h1, endsWithNl_cons_of_ne_nil hjoin_ne]
      exact ih hlast2

theorem getLast?_tail_of_ne_nil {α : Type} {l : List α} (h : l.tail ≠ []) :
    l.tail.getLast? = l.getLast? := by
  cases l with
  | nil => simp at h
  | cons a as =>
    simp only [List.tail_cons] at h ⊢
    cases as with
    | nil => exact absurd rfl h
    | cons b bs => rw [List.getLast?_cons_cons]

theorem filter_enumFrom_pos {α : Type} (ls : List α) (n : Nat) (hn : n ≠ 0) (had : Bool) :
    (List.enumFrom n ls).filter (fun p => if p.1 == 0 then !had else true) =
      List.enumFrom n ls := by
  induction ls generalizing n with
  | nil => rfl
  | cons a as ih =>
    rw [List.enumFrom_cons, List.filter_cons]
    have hcond : (if (n == 0 : Bool) = true then !had else true) = true := by
      have : (n == 0) = false := by simpa using hn
      rw [this]
      simp
    simp only [hcond, if_true]
    rw [ih (n + 1) (Nat.succ_ne_zero n)]

theorem body_no_strip (lines : List (List Char)) (had : Bool) :
    ((lines.enum.filter (fun p => if p.1 == 0 then !had else true)).map Prod.snd) =
      if had then lines.tail else lines := by
  cases lines with
  | nil => cases had <;> rfl
  | cons l0 ls =>
    rw [List.enum_cons, List.filter_cons]
    have h1 : (List.enumFrom 1 ls).filter (fun p => if p.1 == 0 then !had else true) =
        List.enumFrom 1 ls := filter_enumFrom_pos ls 1 one_ne_zero had
    cases had with
    | true =>
      simp only [show (if ((0 : Nat) == 0 : Bool) = true then !true else true) = false from rfl,
        Bool.false_eq_true, if_false, h1, List.enumFrom_map_snd, List.tail_cons, if_true]
    | false =>
      simp only [show (if ((0 : Nat) == 0 : Bool) = true then !false else true) = true from rfl,
        if_true, h1, List.map_cons, List.enumFrom_map_snd, Bool.false_eq_true, if_false]

theorem fixTrailing_ends_of_ends (content newContent : List Char)
    (h : endsWithNl content = true ∨ content = []) :
    endsWithNl (fixTrailing content newContent) = true := by
  have h1 : (endsWithNl content || content == []) = true := by
    rcases h with h | h
    · rw [h]; simp
    · subst h; simp
  unfold fixTrailing
  rw [h1]
  simp only [if_true]
  cases hE : endsWithNl newContent with
  | true => simpa using hE
  | false =>
    simp only [Bool.not_false, if_true]
    exact endsWithNl_append_nl newContent

theorem assembleContent_no_strip_keeps_end (st : Style) (rel content : List Char)
    (clean dryRun : Bool) (hrel : '\n' ∉ rel)
    (hE : endsWithNl content = false) (hne : content ≠ []) :
    endsWithNl (assembleContent st rel ⟨false, clean, dryRun⟩ content) = false := by
  have hlines : rustLines content = splitNl content := by
    unfold rustLines
    rw [if_neg hne, hE]
    simp
  have hlne : splitNl content ≠ [] := splitOnChar_ne_nil '\n' content
  obtain ⟨x, hx⟩ : ∃ x, (splitNl content).getLast? = some x := by
    cases h : (splitNl content).getLast? with
    | none => exact absurd (List.getLast?_eq_none_iff.mp h) hlne
    | some y => exact ⟨y, rfl⟩
  have hxne : x ≠ [] := getLast?_splitNl_ne_nil hne hE hx
  have hxnl : '\n' ∉ x :=
    mem_splitOnChar_not_mem x (List.mem_of_mem_getLast? hx)
  show endsWithNl (fixTrailing content (joinNl
      ((if !clean then [mkHeader st rel] else []) ++
        (((rustLines content).enum.filter
          (fun p => if p.1 == 0 then !(alreadyHad st rel (rustLines content)) else true)).map
            Prod.snd)))) = false
  rw [body_no_strip, hlines]
  have hJ : endsWithNl (joinNl
      ((if !clean then [mkHeader st rel] else []) ++
        (if alreadyHad st rel (splitNl content) then (splitNl content).tail
          else splitNl content))) = false := by
    set B := if alreadyHad st rel (splitNl content) then (splitNl content).tail
      else splitNl content with hB
    by_cases hBnil : B = []
    · rw [hBnil, List.append_nil]
      cases clean with
      | true => rfl
      | false =>
        exact endsWithNl_joinNl_false (by simp)
          (mkHeader_ne_nil st rel) (mkHeader_not_mem_nl hrel)
    · have hlast : ((if !clean then [mkHeader st rel] else []) ++ B).getLast? = some x := by
        rw [List.getLast?_append_of_ne_nil _ hBnil]
        rw [hB]
        cases hHad : alreadyHad st rel (splitNl content) with
        | true =>
          simp only [if_true]
          rw [getLast?_tail_of_ne_nil]
          · exact hx
          · rw [hB, hHad] at hBnil
            simpa using hBnil
        | false => simpa using hx
      exact endsWithNl_joinNl_false hlast hxne hxnl
  unfold fixTrailing
  rw [hE]
  have hbe : (content == ([] : List Char)) = false := by
    simp [hne]
  rw [hbe]
  simp only [Bool.false_or, Bool.false_eq_true, if_false]
  simp only [hJ, Bool.false_and, Bool.false_eq_true, if_false]

end PathComment

namespace PathComment

theorem lookup_map_pair (L : List (List Char)) (g : List Char → Style) (e : List Char) :
    (L.map (fun a => (a, g a))).lookup e = if e ∈ L then some (g e) else none := by
  induction L with
  | nil => simp
  | cons a as ih =>
    by_cases he : e = a
    · subst he
      simp [List.lookup]
    · simp only [List.map_cons, List.lookup, List.mem_cons]
      have : (e == a) = false := by simp [he]
      rw [this]
      simp only [if_neg he, ih]
      by_cases hm : e ∈ as
      · simp [hm]
      · simp [hm, he]

/-- C1 (counterexample): normalization is not idempotent in clean mode.
With clean and strip enabled, a file holding exactly the canonical
header is rewritten to the empty file; rerunning on that output writes
`"\n"` and reports a write, not `NoChangeNeeded`. -/
theorem c1_clean_mode_not_idempotent :
    processCore Style.Slash "test.js".data ⟨true, true, false⟩ "// test.js".data =
      ("".data, Report.written) ∧
    processCore Style.Slash "test.js".data ⟨true, true, false⟩ "".data =
      ("\n".data, Report.written) := by
  constructor <;> decide

/-- C1 (amended): for every content, style and relative path without an
embedded newline, and any strip/dry-run flags, when clean mode is
disabled, running the normalization on the output of a first
normalization leaves it byte-identical and reports `NoChangeNeeded`
(no write). -/
theorem c1_renormalize_noop_without_clean (st : Style) (rel : List Char)
    (strip dryRun : Bool) (content : List Char) (hrel : '\n' ∉ rel) :
    processCore st rel ⟨strip, false, dryRun⟩
        (processCore st rel ⟨strip, false, false⟩ content).1 =
      ((processCore st rel ⟨strip, false, false⟩ content).1, Report.noChange) := by
  by_cases hA : alreadyHad st rel (rustLines content) = true
  · simp [processCore, hA]
  · rw [Bool.not_eq_true] at hA
    by_cases hnc : assembleContent st rel ⟨strip, false, false⟩ content = content
    · have h1 : (processCore st rel ⟨strip, false, false⟩ content).1 = content := by
        simp [processCore, hA, hnc]
      rw [h1]
      have hnc' : assembleContent st rel ⟨strip, false, dryRun⟩ content = content := by
        rw [assembleContent_dryRun_irrelevant st rel strip false dryRun false]
        exact hnc
      simp [processCore, hA, hnc']
    · have h1 : (processCore st rel ⟨strip, false, false⟩ content).1 =
          assembleContent st rel ⟨strip, false, false⟩ content := by
        simp [processCore, hA, hnc]
      rw [h1]
      have hA2 := alreadyHad_assembleContent st rel ⟨strip, false, false⟩ content rfl hrel
      simp [processCore, hA2]

/-- Witness for C1 (amended) at a concrete input. -/
theorem c1_renormalize_noop_without_clean_witness :
    processCore Style.Slash "test.js".data ⟨true, false, false⟩
        (processCore Style.Slash "test.js".data ⟨true, false, false⟩ "content();\n".data).1 =
      ((processCore Style.Slash "test.js".data ⟨true, false, false⟩ "content();\n".data).1,
        Report.noChange) :=
  c1_renormalize_noop_without_clean Style.Slash "test.js".data true false
    "content();\n".data (by decide)

/-- C2 (code bug): with stripping enabled and clean mode off, a file
whose first line is exactly the canonical header but which holds a
matching stale path comment further down is left untouched and reported
`NoChangeNeeded` — the `!strip || !clean` guard short-circuits instead
of continuing to the stale-comment scan as the claim (and the code's
own comments) require. -/
theorem c2_strip_enabled_still_short_circuits :
    isPathComment Style.Slash "// other/path.js".data = true ∧
    processCore Style.Slash "test.js".data ⟨true, false, false⟩
        "// test.js\n// other/path.js\nbody();\n".data =
      ("// test.js\n// other/path.js\nbody();\n".data, Report.noChange) := by
  constructor <;> decide

/-- C3 (counterexample): for style Slash, the line
`// path/to/name.ext - extra text` *is* matched by the stale-path
pattern (segment names may contain spaces and hyphens) and process_file
deletes it when stripping is enabled, contradicting the claim that
trailing content always breaks the match. -/
theorem c3_separator_path_with_prose_is_stripped :
    isPathComment Style.Slash "// path/to/name.ext - extra text".data = true ∧
    processCore Style.Slash "cur.ext".data ⟨true, false, false⟩
        "// path/to/name.ext - extra text\nbody();\n".data =
      ("// cur.ext\nbody();\n".data, Report.written) := by
  constructor <;> decide

/-- C3 (amended): for every style, a separator-free line
`<prefix>name.ext - extra text<suffix>` is not treated as a stale path
comment and survives a stripping run, while the exact line
`<prefix>path/to/name.ext<suffix>` matches the pattern and is stripped. -/
theorem c3_stale_specificity_no_separator (st : Style) :
    isPathComment st (st.delimiters.1 ++ "name.ext - extra text".data ++ st.delimiters.2)
      = false ∧
    isPathComment st (st.delimiters.1 ++ "path/to/name.ext".data ++ st.delimiters.2)
      = true ∧
    ((st.delimiters.1 ++ "name.ext - extra text".data ++ st.delimiters.2) ∈
      rustLines (processCore st "cur.ext".data ⟨true, false, false⟩
        ((st.delimiters.1 ++ "name.ext - extra text".data ++ st.delimiters.2) ++
          '\n' :: (st.delimiters.1 ++ "path/to/name.ext".data ++ st.delimiters.2) ++
          '\n' :: "body();".data ++ ['\n'])).1 ∧
    (st.delimiters.1 ++ "path/to/name.ext".data ++ st.delimiters.2) ∉
      rustLines (processCore st "cur.ext".data ⟨true, false, false⟩
        ((st.delimiters.1 ++ "name.ext - extra text".data ++ st.delimiters.2) ++
          '\n' :: (st.delimiters.1 ++ "path/to/name.ext".data ++ st.delimiters.2) ++
          '\n' :: "body();".data ++ ['\n'])).1) := by
  cases st <;> decide

/-- C4 (counterexample): `"x\n\n\n"` ends with a newline but the
assembled output ends with two newlines (not exactly one); and
`"\n\n// a.js"` does not end with a newline, yet with stripping enabled
the assembled output does end with one. -/
theorem c4_exactly_one_newline_fails :
    (endsWithNl "x\n\n\n".data = true ∧
      assembleContent Style.Slash "test.js".data ⟨false, false, false⟩ "x\n\n\n".data =
        "// test.js\nx\n\n".data ∧
      endsWithNl ("// test.js\nx\n\n".data.dropLast) = true) ∧
    (endsWithNl "\n\n// a.js".data = false ∧
      assembleContent Style.Slash "test.js".data ⟨true, false, false⟩ "\n\n// a.js".data =
        "// test.js\n".data ∧
      endsWithNl "// test.js\n".data = true) := by
  constructor <;> refine ⟨by decide, by decide, by decide⟩

/-- C4 (amended): if the content ends with a newline or is empty, the
assembled output ends with a newline (not necessarily exactly one);
if the content is nonempty and does not end with a newline, then with
stripping disabled the assembled output does not end with a newline. -/
theorem c4_trailing_newline_policy (st : Style) (rel content : List Char)
    (f : Flags) (hrel : '\n' ∉ rel) :
    ((endsWithNl content = true ∨ content = []) →
      endsWithNl (assembleContent st rel f content) = true) ∧
    (endsWithNl content = false → content ≠ [] → f.strip = false →
      endsWithNl (assembleContent st rel f content) = false) := by
  constructor
  · intro h
    exact fixTrailing_ends_of_ends content _ h
  · intro h1 h2 h3
    obtain ⟨s, c, d⟩ := f
    simp only at h3
    subst h3
    exact assembleContent_no_strip_keeps_end st rel content c d hrel h1 h2

/-- Witness for C4 (amended) at concrete inputs. -/
theorem c4_trailing_newline_policy_witness :
    endsWithNl (assembleContent Style.Slash "test.js".data ⟨false, false, false⟩
      "content();\n".data) = true ∧
    endsWithNl (assembleContent Style.Slash "test.js".data ⟨false, false, false⟩
      "content();".data) = false :=
  ⟨(c4_trailing_newline_policy Style.Slash "test.js".data "content();\n".data
      ⟨false, false, false⟩ (by decide)).1 (Or.inl (by decide)),
   (c4_trailing_newline_policy Style.Slash "test.js".data "content();".data
      ⟨false, false, false⟩ (by decide)).2 (by decide) (by decide) rfl⟩

/-- C5: on input `"// old/path/test.js\ncontent();\n"` with style Slash,
relative path `test.js` and stripping enabled, process_file writes
exactly `"// test.js\ncontent();\n"`. -/
theorem c5_concrete_update_scenario :
    processCore Style.Slash "test.js".data ⟨true, false, false⟩
        "// old/path/test.js\ncontent();\n".data =
      ("// test.js\ncontent();\n".data, Report.written) := by
  decide

end PathComment

namespace PathComment

/-- C6: in real-run mode the file is written exactly when the assembled
content differs byte-wise from the original (and what is written is the
assembled content); byte-identical assembled content is reported as no
change with nothing written. In dry-run mode nothing is ever written,
but the file counts as processed (`dryChange`) exactly when the
corresponding real run would have written it. -/
theorem c6_apply_frame_behaviour (st : Style) (rel : List Char) (f : Flags)
    (content : List Char) :
    (f.dryRun = false →
      (((processCore st rel f content).2 = Report.written ↔
        (processCore st rel f content).1 ≠ content) ∧
      ((processCore st rel f content).2 = Report.written →
        (processCore st rel f content).1 = assembleContent st rel f content))) ∧
    (f.dryRun = true →
      (processCore st rel f content).1 = content ∧
      (processCore st rel f content).2 ≠ Report.written ∧
      ((processCore st rel f content).2 = Report.dryChange ↔
        (processCore st rel ⟨f.strip, f.clean, false⟩ content).2 = Report.written)) := by
  obtain ⟨s, c, d⟩ := f
  by_cases h1 : (alreadyHad st rel (rustLines content) && (!s || !c)) = true
  · constructor
    · intro hd
      simp [processCore, h1]
    · intro hd
      simp [processCore, h1]
  · rw [Bool.not_eq_true] at h1
    by_cases h2 : assembleContent st rel ⟨s, c, false⟩ content = content
    · constructor
      · intro hd
        subst hd
        simp [processCore, h1, h2]
      · intro hd
        subst hd
        have hsame : assembleContent st rel ⟨s, c, true⟩ content =
            assembleContent st rel ⟨s, c, false⟩ content :=
          assembleContent_dryRun_irrelevant st rel s c true false content
        simp [processCore, h1, h2, hsame]
    · constructor
      · intro hd
        subst hd
        simp [processCore, h1, h2]
      · intro hd
        subst hd
        have h2' : assembleContent st rel ⟨s, c, true⟩ content ≠ content := by
          rw [assembleContent_dryRun_irrelevant st rel s c true false]
          exact h2
        simp [processCore, h1, h2, h2']

/-- Witness for C6 at a concrete input, in dry-run and real-run mode. -/
theorem c6_apply_frame_behaviour_witness :
    ((processCore Style.Slash "t.js".data ⟨true, false, true⟩ "content();\n".data).1 =
      "content();\n".data ∧
     (processCore Style.Slash "t.js".data ⟨true, false, true⟩ "content();\n".data).2 ≠
      Report.written ∧
     ((processCore Style.Slash "t.js".data ⟨true, false, true⟩ "content();\n".data).2 =
        Report.dryChange ↔
      (processCore Style.Slash "t.js".data ⟨true, false, false⟩ "content();\n".data).2 =
        Report.written)) ∧
    ((processCore Style.Slash "t.js".data ⟨true, false, false⟩ "content();\n".data).2 =
        Report.written ↔
      (processCore Style.Slash "t.js".data ⟨true, false, false⟩ "content();\n".data).1 ≠
        "content();\n".data) :=
  ⟨(c6_apply_frame_behaviour Style.Slash "t.js".data ⟨true, false, true⟩
      "content();\n".data).2 rfl,
   ((c6_apply_frame_behaviour Style.Slash "t.js".data ⟨true, false, false⟩
      "content();\n".data).1 rfl).1⟩

/-- C7: with an explicit allow-list, the constructed table's keys are
exactly the trimmed and lowercased allow-listed extensions; looking up
an allow-listed extension yields its configured style when present in
the merged table and falls back to `Style::Slash` otherwise; and a
warning is emitted exactly for the allow-listed extensions absent from
the merged table. -/
theorem c7_allow_list_merge (table : List (List Char × Style)) (exts : List Char)
    (e : List Char) :
    ((filterExtensions table exts).map Prod.fst = specifiedExtensions exts) ∧
    ((filterExtensions table exts).lookup e =
      if e ∈ specifiedExtensions exts then some ((table.lookup e).getD Style.Slash)
      else none) ∧
    (e ∈ filterWarnings table exts ↔
      e ∈ specifiedExtensions exts ∧ table.lookup e = none) := by
  refine ⟨?_, ?_, ?_⟩
  · simp only [filterExtensions, List.map_map]
    rw [show (Prod.fst ∘ fun a => (a, (List.lookup a table).getD Style.Slash)) = id from rfl,
      List.map_id]
  · show (List.lookup e ((specifiedExtensions exts).map
        (fun a => (a, (List.lookup a table).getD Style.Slash)))) =
      if e ∈ specifiedExtensions exts then some ((List.lookup e table).getD Style.Slash)
      else none
    exact lookup_map_pair (specifiedExtensions exts)
      (fun a => (List.lookup a table).getD Style.Slash) e
  · simp [filterWarnings, List.mem_filter, Option.isNone_iff_eq_none]

/-- C8: `delimiters` is total over the closed style enum and every
returned pair has a non-empty prefix (the suffix may be empty). -/
theorem c8_delimiters_total_nonempty_prefix (st : Style) :
    (Style.delimiters st).1 ≠ [] := by
  cases st <;> decide

/-- C9: when the base directory is not a prefix of the file path,
process_file does not fail: it falls back to the full path itself, with
backslashes replaced by forward slashes and a leading `./` removed, as
the relative path used for the canonical header. -/
theorem c9_outside_base_uses_full_path (base path : List Char)
    (h : stripPrefixPath base path = none) :
    relPathOf base path = trimDotSlash (replaceBackslashes path) ∧
    (∀ (styles : List (List Char × Style)) (override : Option Style) (f : Flags)
      (content : List Char) (st : Style),
      shouldProcessFile styles path = true →
      determineCommentStyle styles override path = some st →
      processFile styles override f base path content =
        processCore st (trimDotSlash (replaceBackslashes path)) f content) := by
  have hrel : relPathOf base path = trimDotSlash (replaceBackslashes path) := by
    unfold relPathOf
    rw [h]
    rfl
  refine ⟨hrel, ?_⟩
  intro styles override f content st hshould hdet
  unfold processFile
  rw [hshould, hdet]
  simp [hrel]

/-- Witness for C9 at a concrete path outside the base directory. -/
theorem c9_outside_base_uses_full_path_witness :
    stripPrefixPath "/proj".data "./other\\file.js".data = none ∧
    relPathOf "/proj".data "./other\\file.js".data = "other/file.js".data ∧
    processFile [("js".data, Style.Slash)] none ⟨true, false, false⟩
        "/proj".data "./other\\file.js".data "x();\n".data =
      processCore Style.Slash
        (trimDotSlash (replaceBackslashes "./other\\file.js".data))
        ⟨true, false, false⟩ "x();\n".data :=
  ⟨by decide,
   ((c9_outside_base_uses_full_path "/proj".data "./other\\file.js".data (by decide)).1).trans
     (by decide),
   (c9_outside_base_uses_full_path "/proj".data "./other\\file.js".data (by decide)).2
     [("js".data, Style.Slash)] none ⟨true, false, false⟩ "x();\n".data Style.Slash
     (by decide) (by decide)⟩

/-- C10: a forced style override does not make a file eligible: for any
path whose lowercased extension is absent from the extension table, or
which has no extension, should_process_file is false and process_file
leaves the content untouched, even with an override style configured. -/
theorem c10_override_not_eligibility (styles : List (List Char × Style))
    (override : Option Style) (f : Flags) (base path content : List Char)
    (h : ∀ e, pathExtension path = some e → styles.lookup (asciiLower e) = none) :
    shouldProcessFile styles path = false ∧
    processFile styles override f base path content = (content, Report.ineligible) := by
  have hs : shouldProcessFile styles path = false := by
    unfold shouldProcessFile
    cases hpe : pathExtension path with
    | none => rfl
    | some e => simp [h e hpe]
  refine ⟨hs, ?_⟩
  unfold processFile
  rw [hs]
  rfl

/-- Witness for C10: extension `.xyz` is not in the table, an override
style Hash is configured, and the file is still skipped untouched. -/
theorem c10_override_not_eligibility_witness :
    shouldProcessFile [("rs".data, Style.Slash)] "dir/test.xyz".data = false ∧
    processFile [("rs".data, Style.Slash)] (some Style.Hash) ⟨true, false, false⟩
        "/b".data "dir/test.xyz".data "x();\n".data =
      ("x();\n".data, Report.ineligible) :=
  c10_override_not_eligibility [("rs".data, Style.Slash)] (some Style.Hash)
    ⟨true, false, false⟩ "/b".data "dir/test.xyz".data "x();\n".data
    (fun e he => by
      have hpe : pathExtension "dir/test.xyz".data = some "xyz".data := by decide
      rw [hpe] at he
      have h2 : "xyz".data = e := Option.some.inj he
      subst h2
      decide)

end PathComment
